import Mathlib

/-!
Verification of the record-extraction and pagination engine of the
amazon-scraper repository.  Python strings are embedded as lists of
characters; the scraper functions are translated into executable Lean
definitions, and the spec claims are settled as theorems about them.
-/

set_option maxRecDepth 4000

/-- Python strings, embedded as lists of characters. -/
abbrev Str := List Char

/-- The "unavailable" sentinel used throughout the scrapers. -/
def na : Str := "N/A".data

/-- ASCII whitespace as recognized by Python `str.split()` / `str.strip()`
(the rarely used Unicode space characters are not modelled). -/
def isWs (c : Char) : Bool :=
  c = ' ' || c = '\t' || c = '\n' || c = '\r' || c = '\x0b' || c = '\x0c'

/-- ASCII lowercase conversion, as in Python `str.lower()` restricted to ASCII. -/
def toLowerAscii (c : Char) : Char :=
  if 'A' ≤ c ∧ c ≤ 'Z' then Char.ofNat (c.toNat + 32) else c

/-- Lowercase a whole string. -/
def lowerStr (s : Str) : Str := s.map toLowerAscii

/-- Does `s` start with `pat`? -/
def startsWith : Str → Str → Bool
  | [], _ => true
  | _ :: _, [] => false
  | p :: ps, c :: cs => p = c && startsWith ps cs

/-- Python substring test `pat in s`. -/
def containsSub (pat : Str) : Str → Bool
  | [] => startsWith pat []
  | c :: cs => startsWith pat (c :: cs) || containsSub pat cs

/-- Characters of `s` before the first occurrence of `pat`
(`s.split(pat)[0]` in Python; the whole string when `pat` does not occur). -/
def takeUntilSub (pat : Str) : Str → Str
  | [] => []
  | c :: cs => if startsWith pat (c :: cs) then [] else c :: takeUntilSub pat cs

/-- Fuel-driven worker for `replaceSub`; the fuel is the length of the string,
which suffices because every step consumes at least one character. -/
def replaceSubFuel (pat rep : Str) : Nat → Str → Str
  | 0, s => s
  | _ + 1, [] => []
  | fuel + 1, c :: cs =>
    if pat ≠ [] ∧ startsWith pat (c :: cs) then
      rep ++ replaceSubFuel pat rep fuel ((c :: cs).drop pat.length)
    else
      c :: replaceSubFuel pat rep fuel cs

/-- Python `s.replace(pat, rep)`: replace all non-overlapping occurrences,
left to right, without rescanning the replacement text. -/
def replaceSub (pat rep s : Str) : Str := replaceSubFuel pat rep s.length s

/-- Remove every occurrence of a character (Python `s.replace(c, "")`). -/
def removeChar (c : Char) (s : Str) : Str := s.filter (fun d => d ≠ c)

/-- Python `s.strip()`: drop leading and trailing whitespace. -/
def stripWs (s : Str) : Str :=
  ((s.dropWhile isWs).reverse.dropWhile isWs).reverse

/-- Worker for `splitWs`, carrying the (reversed) current word. -/
def splitWsAux : Str → Str → List Str
  | [], acc => if acc = [] then [] else [acc.reverse]
  | c :: cs, acc =>
    if isWs c then
      if acc = [] then splitWsAux cs [] else acc.reverse :: splitWsAux cs []
    else
      splitWsAux cs (c :: acc)

/-- Python `s.split()` with no argument: split on runs of whitespace,
discarding empty fields. -/
def splitWs (s : Str) : List Str := splitWsAux s []

/-- Python `" ".join(ws)`. -/
def joinSp : List Str → Str
  | [] => []
  | [w] => w
  | w :: ws => w ++ ' ' :: joinSp ws

/-- `" ".join(s.split())`: collapse every whitespace run to one space. -/
def collapse (s : Str) : Str := joinSp (splitWs s)

/-- `AmazonScraper._clean_text`: collapse whitespace, delete backslashes and
double quotes, strip; empty input and the sentinel are returned as the sentinel. -/
def clean_text (s : Str) : Str :=
  if s = [] ∨ s = na then na
  else stripWs (removeChar '"' (removeChar '\\' (collapse s)))

/-- The percent-encoding translation table of `AmazonScraper._clean_url`,
in the order the Python dict declares it. -/
def urlReplacements : List (Str × Str) :=
  [("%E2%80%91".data, "-".data), ("%E2%80%93".data, "-".data),
   ("%E2%80%94".data, "-".data), ("%20".data, " ".data),
   ("%2C".data, ",".data), ("%2F".data, "/".data), ("%3A".data, ":".data),
   ("%3F".data, "?".data), ("%3D".data, "=".data), ("%26".data, "&".data)]

/-- The tracking-suffix marker `"/ref="` of `AmazonScraper._clean_url`. -/
def refMarker : Str := "/ref=".data

/-- `AmazonScraper._clean_url`: decode escaped slashes, cut the suffix starting
at the first `"/ref="`, then apply the fixed percent-decoding table. -/
def clean_url (url : Str) : Str :=
  if url = [] ∨ url = na then na
  else
    let u1 := replaceSub ("\\/".data) ("/".data) url
    let u2 := if containsSub refMarker u1 then takeUntilSub refMarker u1 else u1
    urlReplacements.foldl (fun acc pr => replaceSub pr.1 pr.2 acc) u2

/-- Consume the rest of a Python digit part after its first digit:
digits with single underscores allowed between digits; returns the rest. -/
def digAfter : Str → Str
  | '_' :: c :: cs => if c.isDigit then digAfter cs else '_' :: c :: cs
  | c :: cs => if c.isDigit then digAfter cs else c :: cs
  | [] => []

/-- Consume a Python digit part (at least one digit); `none` if there is none. -/
def digRun : Str → Option Str
  | c :: cs => if c.isDigit then some (digAfter cs) else none
  | [] => none

/-- Accept the optional exponent suffix of a Python float literal, requiring
the string to end afterwards. -/
def parseExp : Str → Bool
  | [] => true
  | c :: cs =>
    if c = 'e' ∨ c = 'E' then
      let cs' := match cs with
        | d :: ds => if d = '+' ∨ d = '-' then ds else d :: ds
        | [] => []
      match digRun cs' with
      | some rest => rest = []
      | none => false
    else false

/-- Accept the mantissa (after an optional sign) of a Python float literal. -/
def mantissaRest (s : Str) : Bool :=
  match digRun s with
  | some rest =>
    match rest with
    | '.' :: rest2 =>
      (match digRun rest2 with
       | some rest3 => parseExp rest3
       | none => parseExp rest2)
    | _ => parseExp rest
  | none =>
    match s with
    | '.' :: rest2 => (digRun rest2).elim false parseExp
    | _ => false

/-- Does Python `float(s)` succeed?  (ASCII digits; surrounding whitespace,
one sign, underscores between digits, exponent, and inf/infinity/nan.) -/
def pyFloatParses (s : Str) : Bool :=
  let t := stripWs s
  let t2 := match t with
    | c :: cs => if c = '+' ∨ c = '-' then cs else c :: cs
    | [] => []
  let tl := lowerStr t2
  if tl = "inf".data ∨ tl = "infinity".data ∨ tl = "nan".data then true
  else mantissaRest t2

/-! ## The unbounded scroll loop (`AmazonScraper._scroll_page`) -/

/-- One execution of the `while True` body of `_scroll_page`, run with fuel:
`h i` is the i-th reading of `document.body.scrollHeight` (reading 0 is taken
before the loop).  Returns `true` when the loop exits (two equal consecutive
readings) within `fuel` iterations, `false` when the fuel runs out first.
The Python loop itself has no fuel: it simply runs forever in that case. -/
def scrollLoopA (h : Nat → Nat) : Nat → Nat → Nat → Bool
  | _, _, 0 => false
  | last, i, fuel + 1 => if h i = last then true else scrollLoopA h (h i) (i + 1) fuel

/-- Does `_scroll_page` terminate within `fuel` iterations on the height
sequence `h`? -/
def scrollConvergesWithin (h : Nat → Nat) (fuel : Nat) : Bool :=
  scrollLoopA h (h 0) 1 fuel

/-! ## Amazon field extraction -/

/-- Method 1 of `AmazonScraper._extract_price`: the first selector whose
element exists and whose text has a non-empty strip yields
`clean_text(text)`, prefixed with `$` when the symbol is absent and the
cleaned value is not the sentinel.  `none` entries model selectors whose
element is missing. -/
def priceSelStep : List (Option Str) → Str
  | [] => na
  | none :: rest => priceSelStep rest
  | some t :: rest =>
    if stripWs t = [] then priceSelStep rest
    else
      let p := clean_text t
      if p.contains '$' = false ∧ p ≠ na then '$' :: p else p

/-- Try to match the regex `\$[\d,]+\.?\d{0,2}` at the head of the string;
returns the match and the rest of the string. -/
def matchPriceAt : Str → Option (Str × Str)
  | '$' :: cs =>
    let body := cs.takeWhile (fun c => c.isDigit || c = ',')
    if body = [] then none
    else
      let rest1 := cs.drop body.length
      match rest1 with
      | '.' :: rest2 =>
        let frac := (rest2.takeWhile Char.isDigit).take 2
        some ('$' :: body ++ '.' :: frac, rest2.drop frac.length)
      | _ => some ('$' :: body, rest1)
  | _ => none

/-- `re.findall(r'\$[\d,]+\.?\d{0,2}', text)`: all non-overlapping matches,
left to right, driven by fuel (the text length suffices). -/
def findPrices : Nat → Str → List Str
  | 0, _ => []
  | _ + 1, [] => []
  | fuel + 1, c :: cs =>
    match matchPriceAt (c :: cs) with
    | some (m, rest) => m :: findPrices fuel rest
    | none => findPrices fuel cs

/-- Method 3 of `_extract_price`: the first regex match whose text, with `$`
and `,` removed, parses as a float. -/
def firstValidPrice : List Str → Str
  | [] => na
  | m :: ms =>
    if pyFloatParses (removeChar ',' (removeChar '$' m)) then m
    else firstValidPrice ms

/-- `AmazonScraper._extract_price`: method 1 (direct selectors), then method 2
(first aria-label starting with `$`, taking its first whitespace token), then
method 3 (regex over the whole text).  `aria` lists every aria-label value in
document order; `fullText` is `soup.get_text()`. -/
def extract_price (sels : List (Option Str)) (aria : List Str) (fullText : Str) : Str :=
  let p1 := priceSelStep sels
  if p1 ≠ na then p1
  else
    match (aria.filter (fun a => a.head? = some '$')).head? with
    | some a => (splitWs a).headD []
    | none => firstValidPrice (findPrices fullText.length fullText)

/-- The literal `"out of 5"` checked (case-insensitively) by the rating chain. -/
def outOf5 : Str := "out of 5".data

/-- The literal `"out of"` that the rating text is split on (case-sensitively). -/
def outOf : Str := "out of".data

/-- The rating loop of `AmazonScraper._extract_product_data`, carrying the
lingering Python `rating` variable: for each selector, the element's text
(aria-label / title / text, modelled as the resulting string, `none` when
the element is missing) must contain `"out of 5"` in lowercase; if so, the
prefix before `"out of"` is assigned to `rating` *before* the float parse,
so a parse failure continues to the next selector but leaves the prefix in
the variable. -/
def extract_ratingA : List (Option Str) → Str → Str
  | [], rating => rating
  | none :: rest, rating => extract_ratingA rest rating
  | some txt :: rest, rating =>
    if containsSub outOf5 (lowerStr txt) then
      if pyFloatParses (stripWs (takeUntilSub outOf txt)) then
        stripWs (takeUntilSub outOf txt)
      else extract_ratingA rest (stripWs (takeUntilSub outOf txt))
    else extract_ratingA rest rating

/-- The rating extraction, started from the initial `rating = "N/A"`. -/
def extract_rating (sels : List (Option Str)) : Str := extract_ratingA sels na

/-- Is a rating strategy a miss (missing element, missing `"out of 5"`
pattern, or unparsable leading number)? -/
def ratingMiss : Option Str → Bool
  | none => true
  | some txt =>
    !(containsSub outOf5 (lowerStr txt)) ||
      !(pyFloatParses (stripWs (takeUntilSub outOf txt)))

/-- Is a rating strategy a miss that leaves the `rating` variable untouched
(missing element or missing `"out of 5"` pattern)? -/
def ratingCleanMiss : Option Str → Bool
  | none => true
  | some txt => !(containsSub outOf5 (lowerStr txt))

/-- The review-count extraction: strip non-digits from the element text; the
first selector whose remainder is a non-empty all-digit string wins, else "0". -/
def extract_reviews : List (Option Str) → Str
  | [] => "0".data
  | none :: rest => extract_reviews rest
  | some t :: rest =>
    let count := (stripWs t).filter Char.isDigit
    if count ≠ [] ∧ count.all Char.isDigit then count else extract_reviews rest

/-- The product-link extraction: the first selector whose element has an
`href` yields `clean_url(base + href)`; exhaustion yields the sentinel. -/
def extract_link (base : Str) : List (Option Str) → Str
  | [] => na
  | none :: rest => extract_link base rest
  | some href :: _ => clean_url (base ++ href)

/-- The inputs one Amazon search-result node provides to
`_extract_product_data`.  Each `List (Option Str)` gives, selector by
selector, the text the selector would deliver (`none` when no element
matches).  `titleResult`, `deliveryResult` and `stockResult` carry the
outcome of their extraction pipelines, which no claim touches.  `stale`
models a node whose reads raise (the `except` path returning `None`). -/
structure AmazonNode where
  stale : Bool
  titleResult : Str
  linkHrefs : List (Option Str)
  priceSels : List (Option Str)
  priceArias : List Str
  priceText : Str
  ratingSels : List (Option Str)
  reviewSels : List (Option Str)
  deliveryResult : Str
  stockResult : Str
  sponsoredFlag : Bool
deriving DecidableEq

/-- The record built by `AmazonScraper._extract_product_data`. -/
structure AmazonRecord where
  title : Str
  product_link : Str
  price : Str
  rating : Str
  review_count : Str
  delivery : Str
  stock_status : Str
  sponsored : Bool
deriving DecidableEq

/-- `AmazonScraper._extract_product_data`: always returns the assembled record
(with sentinel field values where chains were exhausted) unless a read raised,
in which case it returns `none`. -/
def amazonExtract (base : Str) (n : AmazonNode) : Option AmazonRecord :=
  if n.stale then none
  else some
    { title := n.titleResult
      product_link := extract_link base n.linkHrefs
      price := extract_price n.priceSels n.priceArias n.priceText
      rating := extract_rating n.ratingSels
      review_count := extract_reviews n.reviewSels
      delivery := n.deliveryResult
      stock_status := n.stockResult
      sponsored := n.sponsoredFlag }

/-- `AmazonScraper.save_results` writes nothing when the product list is
empty; otherwise it writes `base + ".csv"` then `base + ".json"` where `base`
is `os.path.splitext(filename)[0]`.  The returned list is the sequence of
files written. -/
def splitextRoot (p : Str) : Str :=
  let sepI : Int := (((p.enum.filter (fun q => q.2 = '/')).map
    (fun q => (q.1 : Int))).getLast?).getD (-1)
  let dotI : Int := (((p.enum.filter (fun q => q.2 = '.')).map
    (fun q => (q.1 : Int))).getLast?).getD (-1)
  if dotI > sepI ∧
      ∃ j ∈ List.range p.length, sepI < (j : Int) ∧ (j : Int) < dotI ∧
        p.get? j ≠ some '.' then
    p.take dotI.toNat
  else p

/-- The file-writing effects of `AmazonScraper.save_results`. -/
def save_results (products : List AmazonRecord) (filename : Str) : List Str :=
  if products = [] then []
  else
    [splitextRoot filename ++ ".csv".data, splitextRoot filename ++ ".json".data]

/-! ## Google Shopping extraction (`GoogleShoppingScraper`) -/

/-- A matched URL element: its `href`, `data-item-id` and `jsname` attributes
(Python `get_attribute` returns `None` for an absent attribute). -/
structure GUrlEl where
  href : Option Str
  dataItemId : Option Str
  jsname : Option Str
deriving DecidableEq

/-- A matched title element: its `aria-label` attribute and its text. -/
structure GTitleEl where
  ariaLabel : Option Str
  text : Str
deriving DecidableEq

/-- The product id: an attribute value, or `str(hash(url))`, kept symbolic. -/
inductive GPid where
  | attr (s : Str)
  | hashOf (u : Option Str)
deriving DecidableEq

/-- Python truthiness of an optional string. -/
def truthyO : Option Str → Bool
  | none => false
  | some s => s ≠ []

/-- Python `a or b` over optional strings. -/
def orTruthy (a b : Option Str) : Option Str :=
  if truthyO a then a else b

/-- The URL loop of `GoogleShoppingScraper._extract_product_data`: each found
element overwrites `url` and `product_id`; the loop breaks on a truthy URL.
The state carries the lingering `(url, product_id)` Python variables. -/
def googleUrlLoop : List (Option GUrlEl) → Option Str × Option GPid →
    Option Str × Option GPid
  | [], st => st
  | none :: rest, st => googleUrlLoop rest st
  | some e :: rest, _ =>
    let url := e.href
    let pid : GPid := match orTruthy e.dataItemId e.jsname with
      | some s => GPid.attr s
      | none => GPid.hashOf url
    if truthyO url then (url, some pid) else googleUrlLoop rest (url, some pid)

/-- The title loop: each found element overwrites `title` with
`aria-label or text.strip()`; the loop breaks on a truthy title. -/
def googleTitleLoop : List (Option GTitleEl) → Str → Str
  | [], t => t
  | none :: rest, t => googleTitleLoop rest t
  | some e :: rest, _ =>
    let t := match e.ariaLabel with
      | some a => if a ≠ [] then a else stripWs e.text
      | none => stripWs e.text
    if t ≠ [] then t else googleTitleLoop rest t

/-- The price loop: the first element with non-empty stripped text whose
text (with `$` and `,` removed) parses as a float wins; a parse failure is
caught and the next selector is tried.  The parsed value is represented by
its cleaned numeric string (the source stores the Python float). -/
def googlePriceLoop : List (Option Str) → Option Str
  | [] => none
  | none :: rest => googlePriceLoop rest
  | some tx :: rest =>
    let pt := stripWs tx
    if pt ≠ [] then
      let cleaned := removeChar ',' (removeChar '$' pt)
      if pyFloatParses cleaned then some cleaned else googlePriceLoop rest
    else googlePriceLoop rest

/-- The inputs one Google Shopping node provides to
`_extract_product_data`; `stale` models the outer `except` path. -/
structure GNode where
  stale : Bool
  urlSels : List (Option GUrlEl)
  titleSels : List (Option GTitleEl)
  priceSels : List (Option Str)
  merchant : Option Str
deriving DecidableEq

/-- The record built by `GoogleShoppingScraper._extract_product_data`. -/
structure GRecord where
  url : Str
  product_id : GPid
  title : Str
  price : Option Str
  merchant : Option Str
  currency : Str
deriving DecidableEq

/-- `GoogleShoppingScraper._extract_product_data`: `None` when the URL chain
ends falsy (`if not url: return None`), when the title chain ends falsy, or
when a read raised; otherwise the assembled record. -/
def googleExtract (n : GNode) : Option GRecord :=
  if n.stale then none
  else
    match googleUrlLoop n.urlSels (none, none) with
    | (none, _) => none
    | (some u, pid) =>
      if u = [] then none
      else
        if googleTitleLoop n.titleSels [] = [] then none
        else some
          { url := u
            product_id := pid.getD (GPid.attr [])
            title := googleTitleLoop n.titleSels []
            price := googlePriceLoop n.priceSels
            merchant := n.merchant.map stripWs
            currency := "USD".data }

/-! ## The BBC traversal (`BBCScraper.scrape_news`) -/

/-- The literal `"/news/"` required in every accepted link. -/
def newsSub : Str := "/news/".data

/-- One article card as `scrape_news` sees it.  `displayed` is
`article.is_displayed()` (an exception there behaves like `False`);
`cardLink` is the `href` of the card's `a[href*='/news/']` element (`none`
when the lookup raises); `title` and `linkStr` are the final values of the
Python `title` / `link` variables after the title-selector chain (the empty
string standing for falsy `None`/`""`); `desc` and `date` are the outcomes of
the description and date chains (`desc` is the sentinel when exhausted). -/
structure BArticle where
  displayed : Bool
  cardLink : Option Str
  title : Str
  linkStr : Str
  desc : Str
  date : Str
deriving DecidableEq

/-- An accepted BBC article record. -/
structure BRec where
  title : Str
  desc : Str
  link : Str
  date : Str
deriving DecidableEq

/-- One round of page loading: either the articles found, or a fatal error
raised outside the inner handler (e.g. the session dying inside
`self._scroll_page()` at the top of the round), which propagates to the
outer `except` of `scrape_news`. -/
inductive PageLoad where
  | ok (arts : List BArticle)
  | fatal
deriving DecidableEq

/-- The uniqueness pre-filter (`scrape_news` lines 155-178): breaks when the
accumulated count has reached the target (the count does not change inside
this loop), skips undisplayed cards and cards without a `/news/` link, and
dedups on the raw card `href` via the per-page `seen_links` set. -/
def preFilter : List BArticle → Nat → Nat → List Str → List BArticle
  | [], _, _, _ => []
  | a :: as, dlen, maxA, seen =>
    if maxA ≤ dlen then []
    else if a.displayed = false then preFilter as dlen maxA seen
    else match a.cardLink with
      | none => preFilter as dlen maxA seen
      | some l =>
        if l ∈ seen then preFilter as dlen maxA seen
        else a :: preFilter as dlen maxA (l :: seen)

/-- The extraction loop over `unique_articles` (`scrape_news` lines 182-329):
validates title/link, consults the cross-page `processed_urls` set on the raw
link, requires a non-sentinel description, and appends the record.  It never
re-checks the target count. -/
def extractLoop : List BArticle → List BRec → List Str → List BRec × List Str
  | [], data, processed => (data, processed)
  | a :: as, data, processed =>
    if a.title = [] ∨ a.linkStr = [] ∨ containsSub newsSub a.linkStr = false then
      extractLoop as data processed
    else if a.linkStr = [] ∨ a.linkStr ∈ processed ∨ a.title = [] then
      extractLoop as data processed
    else if a.title ≠ [] ∧ a.linkStr ≠ [] ∧ containsSub newsSub a.linkStr = true ∧
        a.linkStr ∉ processed ∧ a.desc ≠ na then
      extractLoop as (data ++ [⟨a.title, a.desc, a.linkStr, a.date⟩])
        (a.linkStr :: processed)
    else extractLoop as data processed

/-- One page round of `scrape_news`: pre-filter the cards, then run the
extraction loop, yielding the new `(articles_data, processed_urls)` state. -/
def bbcStep (arts : List BArticle) (maxA : Nat) (data : List BRec)
    (processed : List Str) : List BRec × List Str :=
  extractLoop (preFilter arts data.length maxA []) data processed

/-- The page loop of `scrape_news`: while the count is below the target,
load the page (a fatal load propagates to the outer handler, which returns
the empty list), pre-filter, extract, and stop when the target is reached or
no next page exists (the end of the `pages` list). -/
def bbcGo : List PageLoad → Nat → List BRec → List Str → List BRec
  | [], _, data, _ => data
  | p :: rest, maxA, data, processed =>
    if maxA ≤ data.length then data
    else match p with
      | PageLoad.fatal => []
      | PageLoad.ok arts =>
        if maxA ≤ (bbcStep arts maxA data processed).1.length then
          (bbcStep arts maxA data processed).1
        else
          bbcGo rest maxA (bbcStep arts maxA data processed).1
            (bbcStep arts maxA data processed).2

/-- `BBCScraper.scrape_news` for a traversal whose successive page loads are
`pages` and whose `max_articles` target is `maxA`. -/
def scrape_news (pages : List PageLoad) (maxA : Nat) : List BRec :=
  bbcGo pages maxA [] []

/-- The size of one page load (articles found; a fatal load finds none). -/
def pageSize : PageLoad → Nat
  | PageLoad.ok arts => arts.length
  | PageLoad.fatal => 0

/-- The largest page size of a traversal. -/
def maxPageSize (pages : List PageLoad) : Nat :=
  pages.foldr (fun p m => Nat.max (pageSize p) m) 0

/-! ## Concrete fixtures used by counterexamples and witnesses -/

/-- The default `AMAZON_BASE_URL` from the settings. -/
def amazonBase : Str := "https://www.amazon.com".data

/-- An Amazon node on which every product-link selector misses. -/
def amazonNodeNoLink : AmazonNode :=
  { stale := false, titleResult := "Widget Deluxe Steel Bottle 1L".data
    linkHrefs := [none, none, none, none]
    priceSels := [], priceArias := [], priceText := []
    ratingSels := [], reviewSels := []
    deliveryResult := na, stockResult := "In Stock".data, sponsoredFlag := false }

/-- A Google Shopping node whose URL chain ends with no usable `href`. -/
def gNodeNoUrl : GNode :=
  { stale := false
    urlSels := [none, some { href := none, dataItemId := none, jsname := none }]
    titleSels := [some { ariaLabel := none, text := "Widget".data }]
    priceSels := [], merchant := none }

/-- A displayed, valid BBC article card. -/
def bbcArt1 : BArticle :=
  { displayed := true, cardLink := some ("/news/alpha".data)
    title := "Alpha".data, linkStr := "/news/alpha".data
    desc := "First story".data, date := "2024-01-01".data }

/-- A second displayed, valid BBC article card with a different link. -/
def bbcArt2 : BArticle :=
  { displayed := true, cardLink := some ("/news/beta".data)
    title := "Beta".data, linkStr := "/news/beta".data
    desc := "Second story".data, date := "2024-01-02".data }

/-- A valid card whose link carries a percent-encoded slash. -/
def bbcArtEnc1 : BArticle :=
  { displayed := true, cardLink := some ("/news/x%2Fy".data)
    title := "Enc".data, linkStr := "/news/x%2Fy".data
    desc := "Encoded story".data, date := "2024-01-03".data }

/-- The same logical article with the slash written literally. -/
def bbcArtEnc2 : BArticle :=
  { displayed := true, cardLink := some ("/news/x/y".data)
    title := "Enc".data, linkStr := "/news/x/y".data
    desc := "Encoded story".data, date := "2024-01-03".data }

/-! ## C1: the scroll loop and its (missing) attempt cap -/

/-- On the strictly growing height sequence `id`, the scroll loop never
exits within any amount of fuel once the last reading is below the index. -/
theorem scrollLoopA_id_false :
    ∀ (fuel last i : Nat), last < i → scrollLoopA (fun n => n) last i fuel = false := by
  intro fuel
  induction fuel with
  | zero => intro last i _; rfl
  | succ n ih =>
    intro last i hlt
    simp only [scrollLoopA]
    rw [if_neg (show ¬ ((fun n : Nat => n) i = last) by simp only []; omega)]
    exact ih i (i + 1) (by omega)

/-- If the loop body will see two equal consecutive readings within the fuel,
the loop exits. -/
theorem scrollLoopA_conv (h : Nat → Nat) :
    ∀ (fuel i last : Nat),
      ((h i = last ∧ 1 ≤ fuel) ∨ (∃ m, m + 2 ≤ fuel ∧ h (i + m + 1) = h (i + m))) →
      scrollLoopA h last i fuel = true := by
  intro fuel
  induction fuel with
  | zero =>
    rintro i last (⟨_, h1⟩ | ⟨m, hm, _⟩)
    · omega
    · omega
  | succ n ih =>
    rintro i last hd
    simp only [scrollLoopA]
    by_cases he : h i = last
    · rw [if_pos he]
    · rw [if_neg he]
      rcases hd with ⟨heq, _⟩ | ⟨m, hm, heq⟩
      · exact absurd heq he
      · cases m with
        | zero =>
          apply ih (i + 1) (h i)
          left
          refine ⟨?_, by omega⟩
          simpa using heq
        | succ m' =>
          apply ih (i + 1) (h i)
          right
          refine ⟨m', by omega, ?_⟩
          have e1 : i + 1 + m' + 1 = i + (m' + 1) + 1 := by omega
          have e2 : i + 1 + m' = i + (m' + 1) := by omega
          rw [e1, e2]
          exact heq

/-- Claim C1 is false on the code: no attempt cap exists for `_scroll_page` —
for every candidate cap there is a growth pattern (the always-growing
heights `fun n => n`) on which the loop has not converged within the cap,
because the `while True` loop only exits on two equal consecutive readings. -/
theorem C1_counterexample :
    ¬ ∃ cap : Nat, ∀ h : Nat → Nat, scrollConvergesWithin h cap = true := by
  rintro ⟨cap, hall⟩
  have h1 := hall (fun n => n)
  have h2 : scrollConvergesWithin (fun n : Nat => n) cap = false :=
    scrollLoopA_id_false cap 0 1 (by omega)
  rw [h1] at h2
  cases h2

/-- Amended C1: `_scroll_page` has no attempt cap; it terminates exactly when
the content extent stops growing between two consecutive readings — if the
k-th and (k+1)-th height readings agree, the loop exits within k+1
iterations, but on an ever-growing page it loops forever. -/
theorem C1_theorem (h : Nat → Nat) (k fuel : Nat)
    (hk : h (k + 1) = h k) (hf : k + 1 ≤ fuel) :
    scrollConvergesWithin h fuel = true := by
  unfold scrollConvergesWithin
  apply scrollLoopA_conv
  cases k with
  | zero => exact Or.inl ⟨hk, by omega⟩
  | succ k' =>
    right
    refine ⟨k', by omega, ?_⟩
    have e1 : 1 + k' + 1 = k' + 1 + 1 := by omega
    have e2 : 1 + k' = k' + 1 := by omega
    rw [e1, e2]
    exact hk

/-- Witness for C1_theorem at a constant height sequence. -/
theorem C1_witness : scrollConvergesWithin (fun _ => 7) 1 = true :=
  C1_theorem (fun _ => 7) 0 1 rfl (by omega)

/-! ## C9: save_results writes nothing for an empty product list -/

/-- Claim C9: `save_results` produces its two output files exactly when the
accumulated product list is non-empty; with an empty list it returns without
writing anything. -/
theorem C9_theorem (ps : List AmazonRecord) (fn : Str) :
    save_results ps fn = [] ↔ ps = [] := by
  unfold save_results
  split
  · simp_all
  · simp_all

/-! ## C5: price validation and currency prefixing -/

/-- Claim C5 is false on the code: the direct-selector price method performs
no decimal-pattern or numeric-parse validation — the non-numeric raw value
"abc" is accepted and returned as "$abc" instead of being rejected. -/
theorem C5_counterexample :
    extract_price [some ("abc".data)] [] [] = "$abc".data ∧
    pyFloatParses ("abc".data) = false := by
  exact ⟨by decide, by decide⟩

/-- Amended C5: a raw price delivered by a direct price selector is accepted
whenever its strip is non-empty, with no numeric validation: the result is
`clean_text` of the raw value, prefixed with `$` exactly when the symbol is
absent (so raw "19.99" normalizes to "$19.99"); only the full-text regex
fallback enforces the decimal pattern and a float parse. -/
theorem C5_theorem (r : Str) (rest : List (Option Str)) (aria : List Str)
    (full : Str) (h1 : stripWs r ≠ []) (h2 : clean_text r ≠ na) :
    extract_price (some r :: rest) aria full =
      if (clean_text r).contains '$' = true then clean_text r
      else '$' :: clean_text r := by
  have hp1 : priceSelStep (some r :: rest) =
      if (clean_text r).contains '$' = false ∧ clean_text r ≠ na then
        '$' :: clean_text r
      else clean_text r := by
    simp only [priceSelStep]
    rw [if_neg h1]
  unfold extract_price
  rw [hp1]
  by_cases hc : (clean_text r).contains '$' = true
  · have hnc : ¬ ((clean_text r).contains '$' = false ∧ clean_text r ≠ na) := by
      rintro ⟨hf, _⟩
      rw [hc] at hf
      exact Bool.noConfusion hf
    rw [if_neg hnc, if_pos h2, if_pos hc]
  · have hcf : (clean_text r).contains '$' = false := by
      cases hcc : (clean_text r).contains '$'
      · rfl
      · exact absurd hcc hc
    have hcond : (clean_text r).contains '$' = false ∧ clean_text r ≠ na :=
      ⟨hcf, h2⟩
    rw [if_pos hcond]
    have hne : ('$' :: clean_text r) ≠ na := by
      intro he
      have h3 : List.headD ('$' :: clean_text r) ' ' = List.headD na ' ' := by
        rw [he]
      have h4 : List.headD ('$' :: clean_text r) ' ' = '$' := rfl
      have h5 : List.headD na ' ' = 'N' := by decide
      rw [h4, h5] at h3
      exact absurd h3 (by decide)
    rw [if_pos hne, if_neg hc]

/-- Witness for C5_theorem at the raw value "19.99" of the spec example. -/
theorem C5_witness :
    stripWs ("19.99".data) ≠ [] ∧
    extract_price [some ("19.99".data)] [] [] = "$19.99".data := by
  refine ⟨by decide, ?_⟩
  rw [C5_theorem ("19.99".data) [] [] [] (by decide) (by decide)]
  decide

/-! ## C6: rating strategies miss without raising, but can clobber the field -/

/-- A strategy with a missing element or without the `"out of 5"` pattern is
skipped and leaves the lingering `rating` value untouched. -/
theorem extract_ratingA_skip (t : Option Str) (rest : List (Option Str))
    (r : Str) (h : ratingCleanMiss t = true) :
    extract_ratingA (t :: rest) r = extract_ratingA rest r := by
  cases t with
  | none => rfl
  | some txt =>
    simp only [ratingCleanMiss, Bool.not_eq_true'] at h
    simp only [extract_ratingA]
    rw [if_neg (by simp [h])]

/-- Claim C6 is false on the code: a strategy whose text contains
`"out of 5"` but whose leading prefix fails to parse as a float does
contribute a value to the field — the assignment to `rating` happens before
`float()` raises, so on this all-miss chain the field ends with the
unparsable prefix "abc" instead of the "N/A" sentinel. -/
theorem C6_counterexample :
    ratingMiss (some ("abc out of 5 stars".data)) = true ∧
    extract_rating [some ("abc out of 5 stars".data)] = "abc".data ∧
    extract_rating [some ("abc out of 5 stars".data)] ≠ na := by
  exact ⟨by decide, by decide, by decide⟩

/-- Amended C6: every failing rating strategy continues the chain without
raising, but only strategies whose text lacks the `"out of 5"` pattern (or
whose element is missing) contribute nothing; a strategy whose text contains
the pattern while its leading prefix fails the float parse overwrites the
lingering field value with that prefix before continuing, so the field ends
with the "N/A" sentinel exactly when every strategy is such a clean miss. -/
theorem C6_theorem :
    (∀ (t : Option Str) (rest : List (Option Str)) (r : Str),
      ratingCleanMiss t = true →
      extract_ratingA (t :: rest) r = extract_ratingA rest r) ∧
    (∀ (txt : Str) (rest : List (Option Str)) (r : Str),
      containsSub outOf5 (lowerStr txt) = true →
      pyFloatParses (stripWs (takeUntilSub outOf txt)) = false →
      extract_ratingA (some txt :: rest) r =
        extract_ratingA rest (stripWs (takeUntilSub outOf txt))) ∧
    (∀ ts : List (Option Str), (∀ t ∈ ts, ratingCleanMiss t = true) →
      extract_rating ts = na) := by
  refine ⟨extract_ratingA_skip, ?_, ?_⟩
  · intro txt rest r h1 h2
    simp only [extract_ratingA]
    rw [if_pos h1, if_neg (by simp [h2])]
  · intro ts hall
    show extract_ratingA ts na = na
    induction ts with
    | nil => rfl
    | cons t ts ih =>
      rw [extract_ratingA_skip t ts na (hall t (by simp))]
      exact ih (fun t' ht' => hall t' (by simp [ht']))

/-- Witness for C6_theorem: the clobbering branch on a concrete strategy and
the sentinel on a chain of clean misses. -/
theorem C6_witness :
    extract_ratingA [some ("abc out of 5 stars".data)] na =
      extract_ratingA [] (stripWs (takeUntilSub outOf ("abc out of 5 stars".data))) ∧
    extract_rating [some ("no stars".data), none] = na :=
  ⟨C6_theorem.2.1 ("abc out of 5 stars".data) [] na (by decide) (by decide),
   C6_theorem.2.2 [some ("no stars".data), none] (by decide)⟩

/-! ## C8: record rejection on an unavailable identity -/

/-- Claim C8 is false on the code: the Amazon extractor emits a record even
when every product-link selector misses — the record is returned with the
sentinel "N/A" as its `product_link` instead of being rejected. -/
theorem C8_counterexample :
    amazonExtract amazonBase amazonNodeNoLink ≠ none ∧
    (amazonExtract amazonBase amazonNodeNoLink).map AmazonRecord.product_link =
      some na := by
  exact ⟨by decide, by decide⟩

/-- Amended C8: only the Google Shopping extractor rejects a node whose
identity is unusable — when the URL chain ends with no truthy `href` it
returns no record; the Amazon extractor instead emits the record with the
sentinel as its link. -/
theorem C8_theorem (n : GNode)
    (h : truthyO (googleUrlLoop n.urlSels (none, none)).1 = false) :
    googleExtract n = none := by
  unfold googleExtract
  by_cases hs : n.stale = true
  · rw [if_pos hs]
  · rw [if_neg hs]
    rcases hp : googleUrlLoop n.urlSels (none, none) with ⟨u?, pid⟩
    rw [hp] at h
    cases u? with
    | none => rfl
    | some u =>
      have hue : u = [] := by simpa [truthyO] using h
      subst hue
      simp

/-- Witness for C8_theorem at a node with no usable URL. -/
theorem C8_witness :
    truthyO (googleUrlLoop gNodeNoUrl.urlSels (none, none)).1 = false ∧
    googleExtract gNodeNoUrl = none :=
  ⟨by decide, C8_theorem gNodeNoUrl (by decide)⟩

/-! ## C2: fatal failure discards the partial results -/

/-- Claim C2 is false on the code: a traversal that accepts one article and
then hits a fatal error on the next page load returns the empty list (the
outer exception handler of `scrape_news` returns `[]`), even though the same
traversal without the fatal load returns a non-empty list. -/
theorem C2_counterexample :
    scrape_news [PageLoad.ok [bbcArt1], PageLoad.fatal] 10 = [] ∧
    scrape_news [PageLoad.ok [bbcArt1]] 10 ≠ [] := by
  exact ⟨by decide, by decide⟩

/-- A fatal page load reached after the existing pages (which did not meet
the target) makes the whole traversal return the empty list. -/
theorem bbcGo_fatal_append :
    ∀ (pages : List PageLoad) (t : Nat) (data : List BRec) (proc : List Str),
      (bbcGo pages t data proc).length < t →
      bbcGo (pages ++ [PageLoad.fatal]) t data proc = [] := by
  intro pages
  induction pages with
  | nil =>
    intro t data proc h
    simp only [bbcGo] at h
    simp only [List.nil_append, bbcGo]
    rw [if_neg (by omega)]
  | cons p rest ih =>
    intro t data proc h
    rw [List.cons_append]
    cases p with
    | fatal =>
      simp only [bbcGo] at h ⊢
      by_cases hle : t ≤ data.length
      · rw [if_pos hle] at h; omega
      · rw [if_neg hle]
    | ok arts =>
      simp only [bbcGo] at h ⊢
      by_cases hle : t ≤ data.length
      · rw [if_pos hle] at h; omega
      · rw [if_neg hle] at h ⊢
        by_cases hle2 : t ≤ (bbcStep arts t data proc).1.length
        · rw [if_pos hle2] at h; omega
        · rw [if_neg hle2] at h ⊢
          exact ih t _ _ h

/-- Amended C2: a fatal error does not preserve the partial results — when
the pages before the failure have not reached the target, the traversal
ending in a fatal page load returns the empty list, discarding every record
gathered so far. -/
theorem C2_theorem (pages : List PageLoad) (t : Nat)
    (h : (scrape_news pages t).length < t) :
    scrape_news (pages ++ [PageLoad.fatal]) t = [] :=
  bbcGo_fatal_append pages t [] [] h

/-- Witness for C2_theorem on a one-page traversal followed by a crash. -/
theorem C2_witness :
    (scrape_news [PageLoad.ok [bbcArt1]] 10).length < 10 ∧
    scrape_news ([PageLoad.ok [bbcArt1]] ++ [PageLoad.fatal]) 10 = [] :=
  ⟨by decide, C2_theorem [PageLoad.ok [bbcArt1]] 10 (by decide)⟩

/-! ## C3: deduplication without canonicalization -/

/-- Claim C3 is false on the code: the BBC deduplicator compares raw link
strings, not canonical identities — two differently-encoded URLs with the
same canonical form (`_clean_url` decodes `%2F` to `/`) are both accepted in
one traversal; the Amazon traversal applies no deduplication at all. -/
theorem C3_counterexample :
    clean_url ("/news/x%2Fy".data) = clean_url ("/news/x/y".data) ∧
    ("/news/x%2Fy".data : Str) ≠ "/news/x/y".data ∧
    (scrape_news [PageLoad.ok [bbcArtEnc1, bbcArtEnc2]] 10).length = 2 := by
  exact ⟨by decide, by decide, by decide⟩

/-- The extraction loop preserves the dedup invariant: the accepted links are
pairwise distinct raw strings, and every accepted link is in `processed_urls`. -/
theorem extractLoop_inv :
    ∀ (as : List BArticle) (data : List BRec) (proc : List Str),
      (data.map BRec.link).Nodup → (∀ r ∈ data, r.link ∈ proc) →
      ((extractLoop as data proc).1.map BRec.link).Nodup ∧
        ∀ r ∈ (extractLoop as data proc).1,
          r.link ∈ (extractLoop as data proc).2 := by
  intro as
  induction as with
  | nil => intro data proc h1 h2; exact ⟨h1, h2⟩
  | cons a as ih =>
    intro data proc h1 h2
    simp only [extractLoop]
    split
    · exact ih data proc h1 h2
    · split
      · exact ih data proc h1 h2
      · split
        · rename_i hcond
          obtain ⟨-, -, -, hnp, -⟩ := hcond
          apply ih
          · rw [List.map_append]
            have hnotin : a.linkStr ∉ data.map BRec.link := by
              intro hm
              rcases List.mem_map.mp hm with ⟨r, hr, he⟩
              exact hnp (he ▸ h2 r hr)
            refine List.Nodup.append h1 (by simp) ?_
            intro b hb hb'
            have : b = a.linkStr := by
              simpa using hb'
            exact hnotin (this ▸ hb)
          · intro r hr
            rcases List.mem_append.mp hr with hr | hr
            · exact List.mem_cons_of_mem _ (h2 r hr)
            · have : r = ⟨a.title, a.desc, a.linkStr, a.date⟩ := by
                simpa using hr
              rw [this]
              exact List.mem_cons_self _ _
        · exact ih data proc h1 h2

/-- The page loop preserves distinctness of the accepted raw links. -/
theorem bbcGo_nodup :
    ∀ (pages : List PageLoad) (t : Nat) (data : List BRec) (proc : List Str),
      (data.map BRec.link).Nodup → (∀ r ∈ data, r.link ∈ proc) →
      ((bbcGo pages t data proc).map BRec.link).Nodup := by
  intro pages
  induction pages with
  | nil => intro t data proc h1 _; exact h1
  | cons p rest ih =>
    intro t data proc h1 h2
    cases p with
    | fatal =>
      simp only [bbcGo]
      split
      · exact h1
      · simp
    | ok arts =>
      simp only [bbcGo]
      split
      · exact h1
      · have hst := extractLoop_inv (preFilter arts data.length t []) data proc h1 h2
        split
        · exact hst.1
        · exact ih t _ _ hst.1 hst.2

/-- Amended C3: deduplication works on raw URL strings — within one BBC
traversal no two accepted records carry the same raw link (enforced by the
`processed_urls` membership check before acceptance), but no canonicalization
is applied before the lookup, so differently-encoded URLs with equal
canonical identity are all accepted; Amazon stores canonicalized links via
`_clean_url` yet never deduplicates. -/
theorem C3_theorem (pages : List PageLoad) (t : Nat) :
    ((scrape_news pages t).map BRec.link).Nodup :=
  bbcGo_nodup pages t [] [] (by simp) (by simp)

/-! ## C4: target exactness and overshoot -/

/-- Claim C4 is false on the code: with target 1 and a single page holding
two valid unique articles, the traversal accepts both — the accepted-record
count exceeds the target because the extraction loop never re-checks it. -/
theorem C4_counterexample :
    1 < (scrape_news [PageLoad.ok [bbcArt1, bbcArt2]] 1).length := by
  decide

/-- The extraction loop adds at most one record per candidate. -/
theorem extractLoop_len :
    ∀ (as : List BArticle) (data : List BRec) (proc : List Str),
      (extractLoop as data proc).1.length ≤ data.length + as.length := by
  intro as
  induction as with
  | nil => intro data proc; simp [extractLoop]
  | cons a as ih =>
    intro data proc
    simp only [extractLoop, List.length_cons]
    split
    · have := ih data proc; omega
    · split
      · have := ih data proc; omega
      · split
        · have h6 := ih (data ++ [⟨a.title, a.desc, a.linkStr, a.date⟩])
            (a.linkStr :: proc)
          rw [List.length_append] at h6
          have h7 : ([(⟨a.title, a.desc, a.linkStr, a.date⟩ : BRec)]).length = 1 :=
            rfl
          rw [h7] at h6
          omega
        · have := ih data proc; omega

/-- The pre-filter never returns more candidates than it was given. -/
theorem preFilter_len :
    ∀ (as : List BArticle) (dlen maxA : Nat) (seen : List Str),
      (preFilter as dlen maxA seen).length ≤ as.length := by
  intro as
  induction as with
  | nil => intro dlen maxA seen; simp [preFilter]
  | cons a as ih =>
    intro dlen maxA seen
    simp only [preFilter, List.length_cons]
    split
    · simp
    · split
      · have := ih dlen maxA seen; omega
      · split
        · have := ih dlen maxA seen; omega
        · rename_i l heq
          split
          · have := ih dlen maxA seen; omega
          · simp only [List.length_cons]
            have := ih dlen maxA (l :: seen)
            omega

/-- `maxPageSize` unfolds on a cons. -/
theorem maxPageSize_cons (p : PageLoad) (rest : List PageLoad) :
    maxPageSize (p :: rest) = Nat.max (pageSize p) (maxPageSize rest) := rfl

/-- Any bound at least `target - 1` plus the largest page size bounds the
final accepted count. -/
theorem bbcGo_len :
    ∀ (pages : List PageLoad) (t : Nat) (data : List BRec) (proc : List Str)
      (B : Nat), data.length ≤ B → (t - 1) + maxPageSize pages ≤ B →
      (bbcGo pages t data proc).length ≤ B := by
  intro pages
  induction pages with
  | nil => intro t data proc B h1 _; exact h1
  | cons p rest ih =>
    intro t data proc B h1 hB
    cases p with
    | fatal =>
      simp only [bbcGo]
      split
      · exact h1
      · simp
    | ok arts =>
      simp only [bbcGo]
      split
      · exact h1
      · rename_i hlt
        have hstep : (bbcStep arts t data proc).1.length ≤
            data.length + arts.length := by
          have h3 := extractLoop_len (preFilter arts data.length t []) data proc
          have h4 := preFilter_len arts data.length t []
          unfold bbcStep
          omega
        have harts : arts.length ≤ maxPageSize (PageLoad.ok arts :: rest) := by
          rw [maxPageSize_cons]
          exact Nat.le_max_left _ _
        have hmono : maxPageSize rest ≤ maxPageSize (PageLoad.ok arts :: rest) := by
          rw [maxPageSize_cons]
          exact Nat.le_max_right _ _
        have hbound : (bbcStep arts t data proc).1.length ≤ B := by omega
        split
        · exact hbound
        · exact ih t _ _ B hbound (by omega)

/-- Amended C4: the traversal stops at the first page boundary where the
target is met, and the pre-filter stops admitting candidates, but the
per-page extraction loop does not re-check the target, so the final count
can overshoot it: it is only bounded by `target - 1` plus the size of the
largest page; with fewer reachable records the traversal ends with fewer. -/
theorem C4_theorem (pages : List PageLoad) (t : Nat) :
    (scrape_news pages t).length ≤ (t - 1) + maxPageSize pages :=
  bbcGo_len pages t [] [] ((t - 1) + maxPageSize pages) (by simp)
    (Nat.le_refl _)

/-! ## C7: determinism and (failed) idempotence of the text normalizer -/

/-- Every word produced by the split worker is non-empty and whitespace-free,
provided the accumulator is whitespace-free. -/
theorem splitWsAux_words :
    ∀ (s acc : Str), (∀ c ∈ acc, isWs c = false) →
      ∀ w ∈ splitWsAux s acc, w ≠ [] ∧ ∀ c ∈ w, isWs c = false := by
  intro s
  induction s with
  | nil =>
    intro acc hacc w hw
    simp only [splitWsAux] at hw
    split at hw
    · simp at hw
    · rename_i hne
      simp only [List.mem_singleton] at hw
      subst hw
      refine ⟨?_, ?_⟩
      · intro hrev
        exact hne (by simpa using hrev)
      · intro c hc
        exact hacc c (List.mem_reverse.mp hc)
  | cons c cs ih =>
    intro acc hacc w hw
    simp only [splitWsAux] at hw
    split at hw
    · split at hw
      · exact ih [] (by simp) w hw
      · rename_i hne
        rcases List.mem_cons.mp hw with hw | hw
        · subst hw
          refine ⟨?_, ?_⟩
          · intro hrev
            exact hne (by simpa using hrev)
          · intro d hd
            exact hacc d (List.mem_reverse.mp hd)
        · exact ih [] (by simp) w hw
    · rename_i hcw
      apply ih (c :: acc) ?_ w hw
      intro d hd
      rcases List.mem_cons.mp hd with hd | hd
      · subst hd
        simpa using hcw
      · exact hacc d hd

/-- A character of a split word comes from the string or the accumulator. -/
theorem mem_splitWsAux :
    ∀ (s acc w : Str) (c : Char),
      w ∈ splitWsAux s acc → c ∈ w → c ∈ s ∨ c ∈ acc := by
  intro s
  induction s with
  | nil =>
    intro acc w c hw hc
    simp only [splitWsAux] at hw
    split at hw
    · simp at hw
    · simp only [List.mem_singleton] at hw
      subst hw
      exact Or.inr (List.mem_reverse.mp hc)
  | cons d cs ih =>
    intro acc w c hw hc
    simp only [splitWsAux] at hw
    split at hw
    · split at hw
      · rcases ih [] w c hw hc with h | h
        · exact Or.inl (List.mem_cons_of_mem _ h)
        · simp at h
      · rcases List.mem_cons.mp hw with hw | hw
        · subst hw
          exact Or.inr (List.mem_reverse.mp hc)
        · rcases ih [] w c hw hc with h | h
          · exact Or.inl (List.mem_cons_of_mem _ h)
          · simp at h
    · rcases ih (d :: acc) w c hw hc with h | h
      · exact Or.inl (List.mem_cons_of_mem _ h)
      · rcases List.mem_cons.mp h with h | h
        · subst h
          exact Or.inl (List.mem_cons_self _ _)
        · exact Or.inr h

/-- A character of a joined word list is from some word or is the separator. -/
theorem mem_joinSp :
    ∀ (ws : List Str) (c : Char),
      c ∈ joinSp ws → (∃ w ∈ ws, c ∈ w) ∨ c = ' ' := by
  intro ws
  induction ws with
  | nil => intro c hc; simp [joinSp] at hc
  | cons w tail ih =>
    intro c hc
    cases tail with
    | nil =>
      simp only [joinSp] at hc
      exact Or.inl ⟨w, by simp, hc⟩
    | cons w' ws' =>
      simp only [joinSp] at hc
      rcases List.mem_append.mp hc with hc | hc
      · exact Or.inl ⟨w, by simp, hc⟩
      · rcases List.mem_cons.mp hc with hc | hc
        · exact Or.inr hc
        · rcases ih c hc with ⟨v, hv, hcv⟩ | hc
          · exact Or.inl ⟨v, by simp [hv], hcv⟩
          · exact Or.inr hc

/-- A character of the collapsed string is from the string or is a space. -/
theorem mem_collapse (s : Str) (c : Char) (hc : c ∈ collapse s) :
    c ∈ s ∨ c = ' ' := by
  rcases mem_joinSp (splitWs s) c hc with ⟨w, hw, hcw⟩ | h
  · rcases mem_splitWsAux s [] w c hw hcw with h | h
    · exact Or.inl h
    · simp at h
  · exact Or.inr h

/-- Stripping only removes characters. -/
theorem mem_stripWs (l : Str) (c : Char) (hc : c ∈ stripWs l) : c ∈ l := by
  unfold stripWs at hc
  have h1 := List.mem_reverse.mp hc
  have h2 := (List.dropWhile_suffix isWs).subset h1
  have h3 := List.mem_reverse.mp h2
  exact (List.dropWhile_suffix isWs).subset h3

/-- Removing a character that does not occur is the identity. -/
theorem removeChar_eq_self (ch : Char) (l : Str) (h : ∀ c ∈ l, c ≠ ch) :
    removeChar ch l = l :=
  List.filter_eq_self.mpr (fun a ha => by simpa using h a ha)

/-- The split worker walks over a whitespace-free word by accumulating it. -/
theorem splitWsAux_word_append :
    ∀ (w t acc : Str), (∀ c ∈ w, isWs c = false) →
      splitWsAux (w ++ t) acc = splitWsAux t (w.reverse ++ acc) := by
  intro w
  induction w with
  | nil => intro t acc _; simp
  | cons c w' ih =>
    intro t acc hw
    have hc : isWs c = false := hw c (by simp)
    rw [List.cons_append]
    simp only [splitWsAux]
    rw [if_neg (by simp [hc])]
    rw [ih t (c :: acc) (fun d hd => hw d (by simp [hd]))]
    congr 1
    simp [List.reverse_cons, List.append_assoc]

/-- Splitting is a left inverse of joining on lists of good words. -/
theorem splitWs_joinSp :
    ∀ (ws : List Str), (∀ w ∈ ws, w ≠ [] ∧ ∀ c ∈ w, isWs c = false) →
      splitWs (joinSp ws) = ws := by
  intro ws
  induction ws with
  | nil => intro _; rfl
  | cons w tail ih =>
    intro hgood
    have hw := hgood w (by simp)
    cases tail with
    | nil =>
      show splitWsAux (joinSp [w]) [] = [w]
      have h1 : joinSp [w] = w ++ [] := by simp [joinSp]
      rw [h1, splitWsAux_word_append w [] [] hw.2]
      simp only [splitWsAux, List.append_nil]
      rw [if_neg (by simp [hw.1])]
      simp
    | cons w' ws' =>
      show splitWsAux (joinSp (w :: w' :: ws')) [] = w :: w' :: ws'
      have h1 : joinSp (w :: w' :: ws') = w ++ ' ' :: joinSp (w' :: ws') := rfl
      rw [h1, splitWsAux_word_append w _ [] hw.2]
      simp only [List.append_nil, splitWsAux]
      rw [if_pos (show isWs ' ' = true from rfl)]
      rw [if_neg (show ¬ w.reverse = [] from by simp [hw.1])]
      rw [List.reverse_reverse]
      congr 1
      exact ih (fun v hv => hgood v (by simp [hv]))

/-- Collapsing whitespace is idempotent. -/
theorem collapse_collapse (s : Str) : collapse (collapse s) = collapse s := by
  show joinSp (splitWs (joinSp (splitWs s))) = joinSp (splitWs s)
  rw [splitWs_joinSp (splitWs s) (splitWsAux_words s [] (by simp))]

/-- Joining a non-empty list of non-empty words is non-empty. -/
theorem joinSp_ne_nil :
    ∀ (ws : List Str), (∀ w ∈ ws, w ≠ []) → ws ≠ [] → joinSp ws ≠ [] := by
  intro ws hgood hne
  cases ws with
  | nil => exact absurd rfl hne
  | cons w tail =>
    cases tail with
    | nil =>
      simp only [joinSp]
      exact hgood w (by simp)
    | cons w' ws' =>
      simp only [joinSp]
      intro h
      rcases List.append_eq_nil.mp h with ⟨-, h2⟩
      exact List.cons_ne_nil _ _ h2

/-- The first character of a good join is not whitespace. -/
theorem joinSp_head :
    ∀ (ws : List Str), (∀ w ∈ ws, w ≠ [] ∧ ∀ c ∈ w, isWs c = false) →
      ∀ (c : Char) (cs : Str), joinSp ws = c :: cs → isWs c = false := by
  intro ws hgood c cs heq
  cases ws with
  | nil => simp [joinSp] at heq
  | cons w tail =>
    have hw := hgood w (by simp)
    cases tail with
    | nil =>
      simp only [joinSp] at heq
      exact hw.2 c (by rw [heq]; simp)
    | cons w' ws' =>
      simp only [joinSp] at heq
      cases hww : w with
      | nil => exact absurd hww hw.1
      | cons d w2 =>
        rw [hww, List.cons_append] at heq
        injection heq with h1 _
        subst h1
        exact hw.2 d (by rw [hww]; simp)

/-- The last character of a good join is not whitespace. -/
theorem joinSp_rev_head :
    ∀ (ws : List Str), (∀ w ∈ ws, w ≠ [] ∧ ∀ c ∈ w, isWs c = false) →
      ∀ (c : Char) (cs : Str), (joinSp ws).reverse = c :: cs → isWs c = false := by
  intro ws
  induction ws with
  | nil => intro _ c cs h; simp [joinSp] at h
  | cons w tail ih =>
    intro hgood c cs heq
    have hw := hgood w (by simp)
    cases tail with
    | nil =>
      simp only [joinSp] at heq
      refine hw.2 c ?_
      have : c ∈ w.reverse := by
        rw [heq]
        exact List.mem_cons_self c cs
      exact List.mem_reverse.mp this
    | cons w' ws' =>
      have hgood' : ∀ v ∈ (w' :: ws'), v ≠ [] ∧ ∀ d ∈ v, isWs d = false :=
        fun v hv => hgood v (by simp [hv])
      have hJne : joinSp (w' :: ws') ≠ [] :=
        joinSp_ne_nil _ (fun v hv => (hgood' v hv).1) (by simp)
      obtain ⟨c', cs', hJr⟩ : ∃ c' cs', (joinSp (w' :: ws')).reverse = c' :: cs' := by
        cases hj : (joinSp (w' :: ws')).reverse with
        | nil => exact absurd (by simpa using hj) hJne
        | cons a b => exact ⟨a, b, rfl⟩
      have hc' : isWs c' = false := ih hgood' c' cs' hJr
      have h1 : joinSp (w :: w' :: ws') = w ++ ' ' :: joinSp (w' :: ws') := rfl
      rw [h1, List.reverse_append, List.reverse_cons, hJr] at heq
      simp only [List.cons_append] at heq
      injection heq with h2 _
      rw [← h2]
      exact hc'

/-- Stripping a good join is the identity. -/
theorem stripWs_joinSp :
    ∀ (ws : List Str), (∀ w ∈ ws, w ≠ [] ∧ ∀ c ∈ w, isWs c = false) →
      stripWs (joinSp ws) = joinSp ws := by
  intro ws hgood
  cases hne0 : ws with
  | nil => rfl
  | cons w tail =>
    rw [← hne0]
    have hXne : joinSp ws ≠ [] :=
      joinSp_ne_nil _ (fun v hv => (hgood v hv).1) (by rw [hne0]; simp)
    obtain ⟨c, cs, hXeq⟩ : ∃ c cs, joinSp ws = c :: cs := by
      cases hx : joinSp ws with
      | nil => exact absurd hx hXne
      | cons a b => exact ⟨a, b, rfl⟩
    have hc : isWs c = false := joinSp_head _ hgood c cs hXeq
    have h1 : (joinSp ws).dropWhile isWs = joinSp ws := by
      rw [hXeq, List.dropWhile_cons, if_neg (by simp [hc])]
    obtain ⟨c2, cs2, hXr⟩ : ∃ c2 cs2, (joinSp ws).reverse = c2 :: cs2 := by
      cases hx : (joinSp ws).reverse with
      | nil => exact absurd (by simpa using hx) hXne
      | cons a b => exact ⟨a, b, rfl⟩
    have hc2 : isWs c2 = false := joinSp_rev_head _ hgood c2 cs2 hXr
    have h2 : (joinSp ws).reverse.dropWhile isWs = (joinSp ws).reverse := by
      rw [hXr, List.dropWhile_cons, if_neg (by simp [hc2])]
    unfold stripWs
    rw [h1, h2, List.reverse_reverse]

/-- Stripping the collapsed string is the identity. -/
theorem stripWs_collapse (s : Str) : stripWs (collapse s) = collapse s :=
  stripWs_joinSp (splitWs s) (splitWsAux_words s [] (by simp))

/-- The split worker yields something when a non-whitespace character exists
or the accumulator is non-empty. -/
theorem splitWsAux_ne_nil :
    ∀ (s acc : Str), ((∃ c ∈ s, isWs c = false) ∨ acc ≠ []) →
      splitWsAux s acc ≠ [] := by
  intro s
  induction s with
  | nil =>
    intro acc h
    rcases h with ⟨c, hc, _⟩ | h
    · simp at hc
    · simp only [splitWsAux]
      rw [if_neg h]
      simp
  | cons c cs ih =>
    intro acc h
    simp only [splitWsAux]
    by_cases hcw : isWs c = true
    · rw [if_pos hcw]
      by_cases hacc : acc = []
      · rw [if_pos hacc]
        apply ih
        left
        rcases h with ⟨d, hd, hdw⟩ | hne
        · rcases List.mem_cons.mp hd with hd | hd
          · subst hd
            rw [hcw] at hdw
            exact absurd hdw (by simp)
          · exact ⟨d, hd, hdw⟩
        · exact absurd hacc hne
      · rw [if_neg hacc]
        simp
    · rw [if_neg hcw]
      apply ih
      right
      simp

/-- A non-empty collapsed string exists when some character is not whitespace. -/
theorem collapse_ne_nil (s : Str) (h : ∃ c ∈ s, isWs c = false) :
    collapse s ≠ [] := by
  show joinSp (splitWs s) ≠ []
  apply joinSp_ne_nil
  · exact fun w hw => (splitWsAux_words s [] (by simp) w hw).1
  · exact splitWsAux_ne_nil s [] (Or.inl h)

/-- `clean_text` is idempotent on inputs with no backslash, no double quote,
and at least one non-whitespace character. -/
theorem clean_idem (s : Str) (hb : ∀ c ∈ s, c ≠ '\\') (hq : ∀ c ∈ s, c ≠ '"')
    (hex : ∃ c ∈ s, isWs c = false) :
    clean_text (clean_text s) = clean_text s := by
  by_cases h0 : s = [] ∨ s = na
  · have h1 : clean_text s = na := by
      unfold clean_text
      rw [if_pos h0]
    rw [h1]
    decide
  · have hbc : ∀ c ∈ collapse s, c ≠ '\\' := by
      intro c hc
      rcases mem_collapse s c hc with h | h
      · exact hb c h
      · rw [h]; decide
    have hqc : ∀ c ∈ collapse s, c ≠ '"' := by
      intro c hc
      rcases mem_collapse s c hc with h | h
      · exact hq c h
      · rw [h]; decide
    have hcs : clean_text s = collapse s := by
      unfold clean_text
      rw [if_neg h0, removeChar_eq_self _ _ hbc, removeChar_eq_self _ _ hqc,
        stripWs_collapse]
    rw [hcs]
    have hAne : collapse s ≠ [] := collapse_ne_nil s hex
    by_cases hA2 : collapse s = na
    · unfold clean_text
      rw [if_pos (Or.inr hA2), hA2]
    · have hbA : ∀ c ∈ collapse (collapse s), c ≠ '\\' := by
        intro c hc
        rcases mem_collapse _ c hc with h | h
        · exact hbc c h
        · rw [h]; decide
      have hqA : ∀ c ∈ collapse (collapse s), c ≠ '"' := by
        intro c hc
        rcases mem_collapse _ c hc with h | h
        · exact hqc c h
        · rw [h]; decide
      unfold clean_text
      rw [if_neg (not_or.mpr ⟨hAne, hA2⟩), removeChar_eq_self _ _ hbA,
        removeChar_eq_self _ _ hqA, stripWs_collapse, collapse_collapse]

/-- The output of `clean_text` is the sentinel or free of backslash and quote. -/
theorem clean_text_chars (s : Str) :
    clean_text s = na ∨ ∀ c ∈ clean_text s, c ≠ '\\' ∧ c ≠ '"' := by
  unfold clean_text
  split
  · exact Or.inl rfl
  · right
    intro c hc
    have h1 := mem_stripWs _ c hc
    simp only [removeChar] at h1
    have h2 := List.mem_filter.mp h1
    have h3 := List.mem_filter.mp h2.1
    refine ⟨?_, ?_⟩
    · simpa using h3.2
    · simpa using h2.2

/-- The output of `clean_text` is the sentinel or a stripped string. -/
theorem clean_text_range (s : Str) :
    clean_text s = na ∨ ∃ l, clean_text s = stripWs l := by
  unfold clean_text
  split
  · exact Or.inl rfl
  · exact Or.inr ⟨_, rfl⟩

/-- A non-empty stripped string contains a non-whitespace character. -/
theorem stripWs_nonWs (l : Str) (h : stripWs l ≠ []) :
    ∃ c ∈ stripWs l, isWs c = false := by
  unfold stripWs at h ⊢
  have hzne : (l.dropWhile isWs).reverse.dropWhile isWs ≠ [] := by
    intro hznil
    apply h
    rw [hznil]
    rfl
  refine ⟨((l.dropWhile isWs).reverse.dropWhile isWs).head hzne, ?_, ?_⟩
  · rw [List.mem_reverse]
    exact List.head_mem hzne
  · exact List.head_dropWhile_not isWs _ hzne

/-- Claim C7 is false on the code: `_clean_text` is not idempotent — deleting
the backslash of "a \ b" leaves the double space "a  b", which a second
application collapses to "a b". -/
theorem C7_counterexample :
    clean_text (clean_text ("a \\ b".data)) ≠ clean_text ("a \\ b".data) := by
  decide

/-- Amended C7: the normalizer is deterministic (a pure function) but not
idempotent in general; its second application is a fixed point — for every
string, a third application of `_clean_text` equals the second — and on
strings free of backslash and double quote with a non-whitespace character a
single application is already a fixed point. -/
theorem C7_theorem (s : Str) :
    clean_text (clean_text (clean_text s)) = clean_text (clean_text s) := by
  rcases clean_text_chars s with h | hchars
  · rw [h]
    decide
  · by_cases h1 : clean_text s = []
    · rw [h1]
      decide
    · by_cases h2 : ∃ c ∈ clean_text s, isWs c = false
      · exact clean_idem (clean_text s) (fun c hc => (hchars c hc).1)
          (fun c hc => (hchars c hc).2) h2
      · rcases clean_text_range s with h | ⟨l, hl⟩
        · rw [h]
          decide
        · exfalso
          apply h2
          rw [hl]
          refine stripWs_nonWs l ?_
          rw [← hl]
          exact h1
